import Mathlib

/-!
Verification development for the MCP-testing RAG repository.

The file shallowly embeds the parts of the code that the claims are about:

* `src/src/core/text_splitter.py` (`TextSplitter.split_text`,
  `_split_by_paragraphs`, `_split_by_sentences`, `_find_best_split_point`),
* `src/vector_store.py` (`VectorStore` with `add_embeddings`, `search`,
  `save_index`, `load_index`, `clear`, `remove_embeddings`),
* `src/rag_pipeline.py` (`RAGPipeline.process_multiple_documents`).

Python text is modelled as `List Char`; Python `int` as `Int` (or `Nat` where
the source value is a length); NumPy float vectors as `List ℝ`; fallible
calls as `Except`.  Errors that in Python leave the object partially mutated
carry the post-exception state.
-/

namespace RAG

/-! ### Python string primitives -/

/-- Whitespace set shared by Python's `str.strip()` and the regex class `\s`
(ASCII fragment): space, tab, newline, vertical tab, form feed, carriage
return. -/
def isPySpace (c : Char) : Bool :=
  c == ' ' || c == '\t' || c == '\n' || c == '\x0b' || c == '\x0c' || c == '\r'

/-- Model of Python `str.strip()`: drop whitespace from both ends. -/
def stripL (l : List Char) : List Char :=
  ((l.dropWhile isPySpace).reverse.dropWhile isPySpace).reverse

/-- Model of Python `text.rfind(sub)`: the largest index at which `sub`
occurs in `text`, `none` when it does not occur (`-1` in Python). -/
def rfindL (text sub : List Char) : Option Nat :=
  ((List.range (text.length + 1)).filter (fun i => sub.isPrefixOf (text.drop i))).getLast?

/-- Effective index of a Python slice bound `i` on a sequence of length
`len`: negative indices count from the end and everything is clamped to
`[0, len]`. -/
def pyIdx (len : Nat) (i : Int) : Nat :=
  if i < 0 then (i + len).toNat else min i.toNat len

/-- Model of the Python slice `l[a:b]`. -/
def pySlice (l : List Char) (a b : Int) : List Char :=
  (l.take (pyIdx l.length b)).drop (pyIdx l.length a)

/-! ### The two `re.split` patterns used by the splitter

`_split_by_paragraphs` splits on `\n\s*\n` and `_split_by_sentences` splits
on `(?<=[.!?])\s+`.  Both are modelled by a direct left-to-right scan that
at each position attempts a (greedy) match and otherwise moves one
character; this is exactly the behaviour of `re.split` for these patterns.
-/

/-- Index of the last `'\n'` in a list, if any. -/
def lastNewline (l : List Char) : Option Nat :=
  ((l.enum.filter (fun p => p.2 == '\n')).map Prod.fst).getLast?

/-- Number of characters consumed by a (greedy) match of `\n\s*\n` starting
at the head of the list, `none` when there is no match here.  After the
leading `'\n'`, the greedy `\s*` extends to the last `'\n'` of the following
whitespace run. -/
def matchBlankAt : List Char → Option Nat
  | [] => none
  | c :: rest =>
    if c = '\n' then
      match lastNewline (rest.takeWhile isPySpace) with
      | some t => some (t + 2)
      | none => none
    else none

/-- Scanner for `re.split(r'\n\s*\n', ·)`: `acc` holds the current token
reversed; a match emits the token and restarts after the separator.  The
fuel is always at least the length of `cs`, so the fuel-exhausted branch is
never taken on the wrapper's call. -/
def blankSplitGo : Nat → List Char → List Char → List (List Char)
  | 0, acc, cs => [acc.reverse ++ cs]
  | fuel + 1, acc, cs =>
    match cs with
    | [] => [acc.reverse]
    | c :: rest =>
      match matchBlankAt (c :: rest) with
      | some len => acc.reverse :: blankSplitGo fuel [] (rest.drop (len - 1))
      | none => blankSplitGo fuel (c :: acc) rest

/-- Model of `re.split(r'\n\s*\n', text)`. -/
def pySplitBlank (text : List Char) : List (List Char) :=
  blankSplitGo text.length [] text

/-- Number of characters consumed by a greedy match of `(?<=[.!?])\s+`
starting at the head, given the character preceding the current position. -/
def matchSentAt (prev : Option Char) : List Char → Option Nat
  | [] => none
  | c :: rest =>
    if isPySpace c ∧ (prev = some '.' ∨ prev = some '!' ∨ prev = some '?') then
      some (1 + (rest.takeWhile isPySpace).length)
    else none

/-- Scanner for `re.split(r'(?<=[.!?])\s+', ·)`, tracking the previous
character for the lookbehind. -/
def sentSplitGo : Nat → Option Char → List Char → List Char → List (List Char)
  | 0, _, acc, cs => [acc.reverse ++ cs]
  | fuel + 1, prev, acc, cs =>
    match cs with
    | [] => [acc.reverse]
    | c :: rest =>
      match matchSentAt prev (c :: rest) with
      | some len =>
        acc.reverse :: sentSplitGo fuel ((c :: rest).take len).getLast? [] ((c :: rest).drop len)
      | none => sentSplitGo fuel (some c) (c :: acc) rest

/-- Model of `re.split(r'(?<=[.!?])\s+', text)`. -/
def pySplitSentences (text : List Char) : List (List Char) :=
  sentSplitGo text.length none [] text

/-! ### `TextSplitter` -/

/-- Model of `TextSplitter._split_by_sentences`: split on sentence endings
and keep the stripped non-empty fragments. -/
def splitBySentences (text : List Char) : List (List Char) :=
  (pySplitSentences text).filterMap (fun s => if stripL s = [] then none else some (stripL s))

/-- Model of `TextSplitter._split_by_paragraphs`: split on blank lines,
split the fragments longer than `chunk_size` further into sentences, then
keep the stripped non-empty fragments. -/
def splitByParagraphs (chunk_size : Nat) (text : List Char) : List (List Char) :=
  let paragraphs := pySplitBlank text
  let final_paragraphs :=
    paragraphs.foldl
      (fun acc p => if chunk_size < p.length then acc ++ splitBySentences p else acc ++ [p]) []
  final_paragraphs.filterMap (fun p => if stripL p = [] then none else some (stripL p))

/-- Sentence endings tried, in order, by `_find_best_split_point`. -/
def sentenceEndings : List (List Char) :=
  [['.'], ['!'], ['?'], ['.', '\n'], ['!', '\n'], ['?', '\n']]

/-- The `for ending in self.sentence_endings` loop of
`_find_best_split_point`: the first ending that occurs in `text` with its
last occurrence strictly between `0` and `chunk_size` returns a split point
just after it (early return); otherwise the loop continues. -/
def endingSplitGo (chunk_size : Nat) (text : List Char) : List (List Char) → Option Nat
  | [] => none
  | ending :: rest =>
    match rfindL text ending with
    | some last =>
      if 0 < last ∧ last < chunk_size then some (last + ending.length)
      else endingSplitGo chunk_size text rest
    | none => endingSplitGo chunk_size text rest

/-- First phase of `_find_best_split_point`, over the six endings. -/
def endingSplit (chunk_size : Nat) (text : List Char) : Option Nat :=
  endingSplitGo chunk_size text sentenceEndings

/-- Second phase of `_find_best_split_point`: the last paragraph break. -/
def parSplit (chunk_size : Nat) (text : List Char) : Option Nat :=
  match rfindL text ['\n', '\n'] with
  | some pb => if 0 < pb ∧ pb < chunk_size then some (pb + 2) else none
  | none => none

/-- Third phase of `_find_best_split_point`: the last space. -/
def spaceSplit (chunk_size : Nat) (text : List Char) : Option Nat :=
  match rfindL text [' '] with
  | some ls => if 0 < ls ∧ ls < chunk_size then some ls else none
  | none => none

/-- Model of `TextSplitter._find_best_split_point`: sentence endings, then
paragraph breaks, then word boundaries, else `0`. -/
def findBestSplitPoint (chunk_size : Nat) (text : List Char) : Nat :=
  ((endingSplit chunk_size text).orElse fun _ =>
    (parSplit chunk_size text).orElse fun _ => spaceSplit chunk_size text).getD 0

/-- Model of the `TextChunk` dataclass; its metadata dict always has the
single key `paragraph_count` when built by `split_text`. -/
structure TextChunk where
  text : List Char
  start_index : Int
  end_index : Int
  chunk_id : String
  paragraph_count : Nat
deriving DecidableEq, Repr

/-- Loop state of `TextSplitter.split_text`: emitted chunks, the text
accumulated for the chunk in progress, and its running start index. -/
structure SPState where
  chunks : List TextChunk
  current : List Char
  start_index : Int
deriving DecidableEq, Repr

/-- One iteration of the `for i, paragraph in enumerate(paragraphs)` loop in
`TextSplitter.split_text`, transliterated branch by branch. -/
def splitStep (chunk_size chunk_overlap : Nat) (document_id : String)
    (st : SPState) (ip : Nat × List Char) : SPState :=
  let i := ip.1
  let p := ip.2
  if chunk_size < st.current.length + p.length ∧ st.current ≠ [] then
    let sp := findBestSplitPoint chunk_size st.current
    if 0 < sp then
      let chunk_text := stripL (st.current.take sp)
      let chunks' :=
        if chunk_text ≠ [] then
          st.chunks ++ [⟨chunk_text, st.start_index,
            st.start_index + chunk_text.length,
            document_id ++ "_chunk_" ++ Nat.repr st.chunks.length, i⟩]
        else st.chunks
      let overlap_text := pySlice st.current ((sp : Int) - chunk_overlap) (sp : Int)
      { chunks := chunks'
        current := overlap_text ++ p
        start_index := st.start_index + (sp : Int) - chunk_overlap }
    else
      { chunks := st.chunks ++ [⟨stripL st.current, st.start_index,
          st.start_index + st.current.length,
          document_id ++ "_chunk_" ++ Nat.repr st.chunks.length, i⟩]
        current := p
        -- the source reassigns `current_chunk = paragraph` before using its
        -- length in the start-index update
        start_index := st.start_index + (p.length : Int) - chunk_overlap }
  else
    { st with current := st.current ++ p }

/-- Model of `TextSplitter.split_text`. -/
def splitText (chunk_size chunk_overlap : Nat) (text : List Char)
    (document_id : String) : List TextChunk :=
  if stripL text = [] then []
  else
    let paragraphs := splitByParagraphs chunk_size text
    let st := paragraphs.enum.foldl (splitStep chunk_size chunk_overlap document_id)
      ⟨[], [], 0⟩
    if stripL st.current ≠ [] then
      st.chunks ++ [⟨stripL st.current, st.start_index,
        st.start_index + st.current.length,
        document_id ++ "_chunk_" ++ Nat.repr st.chunks.length, paragraphs.length⟩]
    else st.chunks

/-! ### `VectorStore`

Embedding vectors are `List ℝ` (NumPy float arrays idealised over the
reals), a FAISS index is its dimension, its concrete type, its training
state and the stored vectors, and the store keeps the two parallel Python
lists next to the index.  Operations that can raise return `Except`; when
the Python exception would leave the object partially mutated, the error
value carries the post-exception state.
-/

/-- Vector stored in / given to the FAISS index. -/
abbrev Vec := List ℝ

/-- Python exceptions distinguished by the claims. -/
inductive PyErr
  | valueError (msg : String)
  | fileNotFoundError (msg : String)
  | faissError (msg : String)
  | indexError (msg : String)
deriving DecidableEq, Repr

/-- Nested user metadata dict carried through unchanged by the store. -/
abbrev MetaDict := List (String × String)

/-- Entry of `VectorStore.metadata_store`, as built by `add_embeddings`. -/
structure ChunkMeta where
  chunk_id : String
  metadata : MetaDict
  start_index : Int
  end_index : Int
deriving DecidableEq, Repr

/-- Input record of `add_embeddings`: a dict with a mandatory `embedding`
key and optional `chunk_id`, `metadata`, `start_index`, `end_index`,
`text` keys. -/
structure EmbRecord where
  embedding : Vec
  chunk_id : Option String
  metadata : Option MetaDict
  start_index : Option Int
  end_index : Option Int
  text : Option String

/-- FAISS index state: dimension, index kind, training state (with the
training set recorded when `train` has been called) and stored vectors;
`ntotal` is `vectors.length`. -/
structure FaissIndex where
  dim : Nat
  kind : String
  is_trained : Bool
  train_data : Option (List Vec)
  vectors : List Vec

/-- Model of `VectorStore._create_index`: `flat` and `hnsw` indices are born
trained, `ivf` is not, anything else raises `ValueError`. -/
def createIndex (index_type : String) (d : Nat) : Except PyErr FaissIndex :=
  if index_type = "flat" then .ok ⟨d, "flat", true, none, []⟩
  else if index_type = "ivf" then .ok ⟨d, "ivf", false, none, []⟩
  else if index_type = "hnsw" then .ok ⟨d, "hnsw", true, none, []⟩
  else .error (.valueError ("Unsupported index type: " ++ index_type))

/-- Model of the `VectorStore` object. -/
structure VectorStore where
  index_path : Option String
  embedding_dim : Option Nat
  index_type : String
  index : Option FaissIndex
  metadata_store : List ChunkMeta
  chunk_texts : List String

/-- Python truthiness of an optional integer (`None` and `0` are falsy). -/
def optNatTruthy : Option Nat → Bool
  | some d => d != 0
  | none => false

/-- Model of `VectorStore.__init__` without an existing file at
`index_path`: create an index only when `embedding_dim` is truthy. -/
def mkVectorStore (embedding_dim : Option Nat) (index_type : String) :
    Except PyErr VectorStore :=
  if optNatTruthy embedding_dim then
    match createIndex index_type (embedding_dim.getD 0) with
    | .ok idx => .ok ⟨none, embedding_dim, index_type, some idx, [], []⟩
    | .error e => .error e
  else .ok ⟨none, embedding_dim, index_type, none, [], []⟩

/-- Model of `np.linalg.norm`: the Euclidean norm. -/
noncomputable def pyNorm (v : Vec) : ℝ :=
  Real.sqrt ((v.map fun x => x * x).sum)

/-- Normalisation performed by `add_embeddings`/`search`: divide by the norm
when it is positive, otherwise leave the vector as is. -/
noncomputable def pyNormalize (v : Vec) : Vec :=
  if 0 < pyNorm v then v.map (fun x => x / pyNorm v) else v

/-- Training step of `add_embeddings`: `index.train(arr)` marks the index
trained and records the training set; it is invoked only on an untrained
index. -/
def trainIndex (idx : FaissIndex) (arr : List Vec) : FaissIndex :=
  { idx with is_trained := true, train_data := some arr }

/-- Lookup-or-create step of `add_embeddings` (`if self.index is None:
self._create_index(...)`). -/
def getOrCreate (s : VectorStore) (d : Nat) : Except PyErr FaissIndex :=
  match s.index with
  | some idx => .ok idx
  | none => createIndex s.index_type d

/-- Model of `VectorStore.add_embeddings`.  The `np.array` conversion
requires all rows to have one common length, and FAISS raises when that
length differs from the index dimension; both failures happen before any
field of the store is mutated. -/
noncomputable def addEmbeddings (s : VectorStore) (embeddings : List EmbRecord)
    (normalize : Bool) : Except (PyErr × VectorStore) VectorStore :=
  match embeddings with
  | [] => .ok s
  | e0 :: _ =>
    let embedding_vectors :=
      embeddings.map fun e => if normalize then pyNormalize e.embedding else e.embedding
    let metadata_list := embeddings.map fun e =>
      ChunkMeta.mk (e.chunk_id.getD "") (e.metadata.getD []) (e.start_index.getD 0)
        (e.end_index.getD 0)
    let text_list := embeddings.map fun e => e.text.getD ""
    if embeddings.all fun e => e.embedding.length = e0.embedding.length then
      match getOrCreate s e0.embedding.length with
      | .error err => .error (err, s)
      | .ok idx0 =>
        if idx0.dim = e0.embedding.length then
          let trained := if idx0.is_trained then idx0 else trainIndex idx0 embedding_vectors
          .ok { s with
            index := some { trained with vectors := trained.vectors ++ embedding_vectors }
            metadata_store := s.metadata_store ++ metadata_list
            chunk_texts := s.chunk_texts ++ text_list }
        else .error (.faissError "vector dimension does not match the index", s)
    else .error (.valueError "setting an array element with a sequence", s)

/-- Total vector count of the store, `0` when there is no index. -/
def ntotal (s : VectorStore) : Nat :=
  match s.index with
  | some idx => idx.vectors.length
  | none => 0

/-- Inner product used by `IndexFlatIP`. -/
noncomputable def ipR (q v : Vec) : ℝ := (List.zipWith (· * ·) q v).sum

/-- Extract the best-scoring entry (ties resolved towards the earlier
index, as FAISS does) and return it with the remaining entries. -/
noncomputable def selectBest (best : ℝ × Nat) : List (ℝ × Nat) → ((ℝ × Nat) × List (ℝ × Nat))
  | [] => (best, [])
  | c :: rest =>
    if best.1 < c.1 then
      let br := selectBest c rest
      (br.1, best :: br.2)
    else
      let br := selectBest best rest
      (br.1, c :: br.2)

/-- FAISS exhaustive `k`-nearest-neighbour search over scored entries:
repeatedly select the best remaining entry, `k` times. -/
noncomputable def faissTopK : Nat → List (ℝ × Nat) → List (ℝ × Nat)
  | 0, _ => []
  | _ + 1, [] => []
  | k + 1, c :: rest =>
    let br := selectBest c rest
    br.1 :: faissTopK k br.2

/-- One entry of the result list of `VectorStore.search`. -/
structure SearchResult where
  score : ℝ
  index : Nat
  metadata : ChunkMeta
  text : String

/-- Model of `VectorStore.search`: empty stores return `[]` immediately, the
query is normalised on request, FAISS is asked for `min k ntotal`
neighbours (raising on a dimension mismatch), and each returned position
below `len(metadata_store)` is zipped with its metadata and text. -/
noncomputable def searchStore (s : VectorStore) (query_embedding : Vec) (k : Nat)
    (normalize : Bool) : Except PyErr (List SearchResult) :=
  match s.index with
  | none => .ok []
  | some idx =>
    if idx.vectors.length = 0 then .ok []
    else
      let q := if normalize then pyNormalize query_embedding else query_embedding
      if q.length = idx.dim then
        let scored := idx.vectors.enum.map fun iv => (ipR q iv.2, iv.1)
        let hits := faissTopK (min k idx.vectors.length) scored
        .ok (hits.filterMap fun si =>
          if si.2 < s.metadata_store.length then
            some ⟨si.1, si.2, s.metadata_store.getD si.2 ⟨"", [], 0, 0⟩,
              if si.2 < s.chunk_texts.length then s.chunk_texts.getD si.2 "" else ""⟩
          else none)
      else .error (.faissError "query dimension does not match the index")

/-- Model of `VectorStore.clear`: an existing index is replaced by a fresh
one when `embedding_dim` is truthy and dropped otherwise; the parallel
lists are emptied.  A `ValueError` from `_create_index` propagates before
the lists are cleared. -/
def clearStore (s : VectorStore) : Except (PyErr × VectorStore) VectorStore :=
  match s.index with
  | none => .ok { s with metadata_store := [], chunk_texts := [] }
  | some _ =>
    if optNatTruthy s.embedding_dim then
      match createIndex s.index_type (s.embedding_dim.getD 0) with
      | .error e => .error (e, s)
      | .ok idx => .ok { s with index := some idx, metadata_store := [], chunk_texts := [] }
    else .ok { s with index := none, metadata_store := [], chunk_texts := [] }

/-- Keep the entries of `l` whose positions are not listed in `idxs`
(the list-comprehension / boolean-mask pattern of `remove_embeddings`). -/
def keepNotIn (l : List α) (idxs : List Nat) : List α :=
  (l.enum.filter fun p => ¬ p.1 ∈ idxs).map Prod.snd

/-- Positions of the metadata entries whose chunk id is listed for removal
(the local `indices_to_remove` of `remove_embeddings`). -/
def removalIdxs (s : VectorStore) (chunk_ids : List String) : List Nat :=
  (s.metadata_store.enum.filter fun im => im.2.chunk_id ∈ chunk_ids).map Prod.fst

/-- Model of `VectorStore.remove_embeddings`: empty id list or no matching
chunk id leaves the store unchanged; a non-flat (or absent) index only logs
a warning; a flat index is rebuilt from the unmasked vectors with the
matching rows dropped from all three structures.  The NumPy mask
assignment raises `IndexError` when an index is out of range, and adding to
an untrained rebuilt index raises after `self.index` has already been
replaced. -/
def removeEmbeddings (s : VectorStore) (chunk_ids : List String) :
    Except (PyErr × VectorStore) VectorStore :=
  if chunk_ids = [] then .ok s
  else
    if removalIdxs s chunk_ids = [] then .ok s
    else
      match s.index with
      | some idx =>
        if idx.kind = "flat" then
          if (removalIdxs s chunk_ids).all fun i => i < idx.vectors.length then
            match createIndex s.index_type idx.dim with
            | .error e => .error (e, s)
            | .ok newIdx =>
              if newIdx.is_trained then
                .ok { s with
                  index := some { newIdx with
                    vectors := keepNotIn idx.vectors (removalIdxs s chunk_ids) }
                  metadata_store := keepNotIn s.metadata_store (removalIdxs s chunk_ids)
                  chunk_texts := keepNotIn s.chunk_texts (removalIdxs s chunk_ids) }
              else
                .error (.faissError "add to an untrained index",
                  { s with index := some newIdx })
          else .error (.indexError "mask index out of range", s)
        else .ok s
      | none => .ok s

/-! ### Persistence -/

/-- Content of the two files written by `save_index`: the serialised FAISS
index and the metadata pickle with its four keys. -/
inductive FileData
  | faissFile (idx : FaissIndex)
  | pklFile (metadata : List ChunkMeta) (texts : List String)
      (embedding_dim : Option Nat) (index_type : String)

/-- Filesystem modelled as a write log; the latest write of a name wins. -/
abbrev FileSystem := List (String × FileData)

/-- Write (or overwrite) a file. -/
def fsWrite (fs : FileSystem) (name : String) (d : FileData) : FileSystem :=
  (name, d) :: fs

/-- Read a file. -/
def fsRead (fs : FileSystem) (name : String) : Option FileData :=
  (fs.find? fun e => e.1 == name).map Prod.snd

/-- Python `path or self.index_path`: the first truthy of the two. -/
def firstTruthyStr (a b : Option String) : Option String :=
  match a with
  | some s => if s = "" then b else some s
  | none => b

/-- Model of `os.path.dirname` (POSIX `posixpath.dirname`): everything up
to and including the final `'/'`, with trailing slashes stripped unless the
head consists of slashes only; the empty string when there is no slash. -/
def osDirname (p : String) : String :=
  let cs := p.data
  let i := match rfindL cs ['/'] with
    | some k => k + 1
    | none => 0
  let head := cs.take i
  if head ≠ [] ∧ head.any fun c => c != '/' then
    ((head.reverse.dropWhile fun c => c == '/').reverse).asString
  else head.asString

/-- Model of `VectorStore.save_index`: nothing happens without an index;
without a truthy path a `ValueError` is raised; then
`os.makedirs(os.path.dirname(save_path), exist_ok=True)` runs, which
raises `FileNotFoundError` when the dirname is empty (a path with no
directory component) and on the idealised always-writable filesystem
succeeds otherwise; finally the FAISS index goes to `path + ".faiss"` and
the metadata pickle to `path + ".metadata.pkl"`. -/
def saveIndex (s : VectorStore) (fs : FileSystem) (path : Option String) :
    Except PyErr FileSystem :=
  match s.index with
  | none => .ok fs
  | some idx =>
    match firstTruthyStr path s.index_path with
    | none => .error (.valueError "No path specified for saving index")
    | some sp =>
      if sp = "" then .error (.valueError "No path specified for saving index")
      else if osDirname sp = "" then
        .error (.fileNotFoundError "No such file or directory: ''")
      else
        .ok (fsWrite (fsWrite fs (sp ++ ".faiss") (.faissFile idx))
          (sp ++ ".metadata.pkl")
          (.pklFile s.metadata_store s.chunk_texts s.embedding_dim s.index_type))

/-- Model of `VectorStore.load_index`: `FileNotFoundError` when either file
is missing, otherwise restore the index and the four pickled fields. -/
def loadIndex (s : VectorStore) (fs : FileSystem) (path : String) :
    Except PyErr VectorStore :=
  if (fsRead fs (path ++ ".faiss")).isNone || (fsRead fs (path ++ ".metadata.pkl")).isNone then
    .error (.fileNotFoundError ("Index files not found at " ++ path))
  else
    match fsRead fs (path ++ ".faiss"), fsRead fs (path ++ ".metadata.pkl") with
    | some (.faissFile idx), some (.pklFile md txts dim tpe) =>
      .ok { s with
        index := some idx
        metadata_store := md
        chunk_texts := txts
        embedding_dim := dim
        index_type := tpe }
    | _, _ => .error (.valueError "could not deserialize index files")

/-! ### Reachability for the alignment invariant -/

/-- Mutating calls considered by the invariant claim. -/
inductive StoreOp
  | add (embeddings : List EmbRecord) (normalize : Bool)
  | remove (chunk_ids : List String)
  | clearAll

/-- State of the store after a fallible call, whether or not it raised:
the error values carry the state left behind by the exception. -/
def outState : Except (PyErr × VectorStore) VectorStore → VectorStore
  | .ok s' => s'
  | .error es => es.2

/-- State of the store after a call. -/
noncomputable def applyOp (s : VectorStore) : StoreOp → VectorStore
  | .add embs nm => outState (addEmbeddings s embs nm)
  | .remove cids => outState (removeEmbeddings s cids)
  | .clearAll => outState (clearStore s)

/-- Stores reachable from a freshly constructed store by any sequence of
`add_embeddings`, `remove_embeddings` and `clear` calls. -/
inductive Reachable : VectorStore → Prop
  | fresh (dim : Option Nat) (tpe : String) (s : VectorStore) :
      mkVectorStore dim tpe = .ok s → Reachable s
  | step (s : VectorStore) (op : StoreOp) : Reachable s → Reachable (applyOp s op)

/-! ### `RAGPipeline.process_multiple_documents`

The per-document work (`process_document`: loader → splitter → embedder →
vector store → summarizer) calls the external ML libraries, so it is
abstracted as a stateful oracle `σ → String → Except String δ × σ`
returning either the result dict (opaque `δ`) or the message of the raised
exception; the claim quantifies over its outcomes.  `process_document` is
invoked with `save_index=False`, so the oracle performs no save; saving is
recorded as an explicit event.
-/

/-- Entry of the list returned by `process_multiple_documents`: the result
dict of a successful `process_document` call, or the error dict
`{'file_path': ..., 'error': ..., 'success': False}` built in the `except`
branch. -/
inductive PMResult (δ : Type)
  | ok (result : δ)
  | failed (file_path : String) (error : String) (success : Bool)
deriving DecidableEq

/-- Observable actions of the loop: processing one path, saving the index. -/
inductive PMEvent
  | proc (path : String)
  | save
deriving DecidableEq

/-- Python truthiness of an optional string (`None` and `''` are falsy). -/
def strTruthy : Option String → Bool
  | some s => s != ""
  | none => false

/-- The `for file_path in file_paths` loop of `process_multiple_documents`:
each path is processed through the oracle, failures are converted to error
dicts, and every path is attempted. -/
def runPM (oracle : σ → String → Except String δ × σ) :
    σ → List String → List (PMResult δ) × List PMEvent × σ
  | st, [] => ([], [], st)
  | st, path :: rest =>
    let r := oracle st path
    let res : PMResult δ :=
      match r.1 with
      | .ok d => .ok d
      | .error e => .failed path e false
    let tl := runPM oracle r.2 rest
    (res :: tl.1, .proc path :: tl.2.1, tl.2.2)

/-- Model of `RAGPipeline.process_multiple_documents`: run the loop, then
save the index once if `save_index` and `self.index_path` are truthy. -/
def processMultipleDocuments (oracle : σ → String → Except String δ × σ) (st : σ)
    (file_paths : List String) (save_index : Bool) (index_path : Option String) :
    List (PMResult δ) × List PMEvent × σ :=
  let out := runPM oracle st file_paths
  (out.1, out.2.1 ++ (if save_index ∧ strTruthy index_path then [PMEvent.save] else []),
    out.2.2)

/-- Oracle states seen at the start of each loop iteration, position by
position. -/
def pmStates (oracle : σ → String → Except String δ × σ) :
    σ → List String → List σ
  | _, [] => []
  | st, path :: rest => st :: pmStates oracle (oracle st path).2 rest

/-! ## Shared lemmas -/

/-- Appending on the left of a string is injective. -/
theorem string_append_right_inj {a b c : String} : a ++ b = a ++ c ↔ b = c := by
  constructor
  · intro h
    have h2 : a.data ++ b.data = a.data ++ c.data := by
      simpa using congrArg String.data h
    exact String.toList_inj.mp (List.append_cancel_left h2)
  · intro h
    rw [h]

/-! ## C9: searching an empty store -/

/-- C9: for every query embedding, every `k` and every `normalize` flag, a
store whose index is `None` or holds zero vectors returns the empty result
list from `search`, raising no exception (the store itself is not an output
of the pure model, so it is trivially unmodified). -/
theorem c9_search_empty_store (s : VectorStore) (q : Vec) (k : Nat) (normalize : Bool)
    (h : s.index = none ∨ ntotal s = 0) :
    searchStore s q k normalize = .ok [] := by
  unfold searchStore
  match hidx : s.index with
  | none => rfl
  | some idx =>
    rcases h with h | h
    · rw [hidx] at h
      cases h
    · have hv : idx.vectors.length = 0 := by
        unfold ntotal at h
        rw [hidx] at h
        exact h
      simp [hv]

/-- Store with no index, used to witness C9. -/
def emptyStoreEx : VectorStore := ⟨none, some 3, "flat", none, [], []⟩

/-- Witness for C9 at a concrete empty store. -/
theorem c9_search_empty_store_witness :
    (emptyStoreEx.index = none ∨ ntotal emptyStoreEx = 0) ∧
    searchStore emptyStoreEx [1, 2, 3] 5 true = .ok [] :=
  ⟨Or.inl rfl, c9_search_empty_store emptyStoreEx [1, 2, 3] 5 true (Or.inl rfl)⟩

/-! ## C5: the chunk-size threshold is not an upper bound -/

/-- C5 (code bug): `chunk_size` is documented as the "Maximum size of each
chunk in characters", but on eleven `'a'`s with `chunk_size = 10` and
`chunk_overlap = 2` the splitter returns a single chunk of eleven
characters: a run of text with no sentence ending, paragraph break or space
is never cut down to the threshold. -/
theorem c5_oversized_chunk :
    ((splitText 10 2 (List.replicate 11 'a') "doc").map fun c => c.text.length) = [11] ∧
    10 < 11 := by
  constructor
  · decide
  · decide

/-! ## C8: pipeline error isolation -/

/-- Loop part of `process_multiple_documents`: one result and one
processing event per path, and the result at position `i` is determined by
the oracle call at position `i` alone — a raised exception becomes the
error dict of that path and no other position is affected. -/
theorem runPM_spec {σ δ : Type} (oracle : σ → String → Except String δ × σ)
    (st : σ) (paths : List String) :
    (runPM oracle st paths).1.length = paths.length ∧
    (runPM oracle st paths).2.1 = paths.map PMEvent.proc ∧
    ∀ i, i < paths.length →
      ∃ stI, (pmStates oracle st paths).get? i = some stI ∧
        (runPM oracle st paths).1.get? i =
          some (match (oracle stI (paths.getD i "")).1 with
            | .ok d => PMResult.ok d
            | .error e => PMResult.failed (paths.getD i "") e false) := by
  induction paths generalizing st with
  | nil =>
    refine ⟨rfl, rfl, ?_⟩
    intro i hi
    cases hi
  | cons p rest ih =>
    obtain ⟨ih1, ih2, ih3⟩ := ih (oracle st p).2
    refine ⟨by simpa [runPM] using ih1, by simpa [runPM] using ih2, ?_⟩
    intro i hi
    cases i with
    | zero => exact ⟨st, rfl, rfl⟩
    | succ j =>
      obtain ⟨stI, hs, hr⟩ := ih3 j (by simpa using hi)
      exact ⟨stI, by simpa [pmStates] using hs, by simpa [runPM] using hr⟩

/-- C8: `process_multiple_documents` yields exactly one result per input
path, in input order; every path is processed even when earlier ones fail;
a failing document contributes the error dict `{'file_path': path, 'error':
message, 'success': False}` while its own outcome is a function of its own
oracle call only; and the single save event comes after all processing
events exactly when `save_index` holds and `index_path` is truthy. -/
theorem c8_process_multiple_documents {σ δ : Type}
    (oracle : σ → String → Except String δ × σ) (st : σ) (paths : List String)
    (save_index : Bool) (index_path : Option String) :
    (processMultipleDocuments oracle st paths save_index index_path).1.length =
      paths.length ∧
    (processMultipleDocuments oracle st paths save_index index_path).2.1 =
      paths.map PMEvent.proc ++
        (if save_index ∧ strTruthy index_path then [PMEvent.save] else []) ∧
    ∀ i, i < paths.length →
      ∃ stI, (pmStates oracle st paths).get? i = some stI ∧
        (processMultipleDocuments oracle st paths save_index index_path).1.get? i =
          some (match (oracle stI (paths.getD i "")).1 with
            | .ok d => PMResult.ok d
            | .error e => PMResult.failed (paths.getD i "") e false) := by
  obtain ⟨h1, h2, h3⟩ := runPM_spec oracle st paths
  exact ⟨h1, by simpa [processMultipleDocuments] using h2, h3⟩

/-- Oracle used to witness C8: it fails on the path `"b"` only. -/
def pmOracleEx : Nat → String → Except String String × Nat :=
  fun n p => (if p = "b" then .error "boom" else .ok p, n + 1)

/-- Witness for C8: on `["a", "b", "c"]` the failing middle path is
isolated. -/
theorem c8_process_multiple_documents_witness :
    1 < (["a", "b", "c"] : List String).length ∧
    (∃ stI, (pmStates pmOracleEx 0 ["a", "b", "c"]).get? 1 = some stI ∧
      (processMultipleDocuments pmOracleEx 0 ["a", "b", "c"] true (some "idx")).1.get? 1 =
        some (match (pmOracleEx stI ((["a", "b", "c"] : List String).getD 1 "")).1 with
          | .ok d => PMResult.ok d
          | .error e => PMResult.failed ((["a", "b", "c"] : List String).getD 1 "") e false)) :=
  ⟨by decide,
    (c8_process_multiple_documents pmOracleEx 0 ["a", "b", "c"] true (some "idx")).2.2 1
      (by decide)⟩

/-! ## C2: persistence round trip -/

/-- Store with a non-empty flat index, used by the C2 theorems. -/
def vsWithIndex : VectorStore :=
  ⟨none, some 2, "flat", some ⟨2, "flat", true, none, [[1, 0]]⟩,
    [⟨"c0", [("k", "v")], 0, 4⟩], ["chunk text"]⟩

/-- C2 counterexample: the claim's "for every path p" fails twice.  With
`p = ""` the empty string is falsy, `save_path = path or self.index_path`
falls back to the unset attribute, and `save_index` raises `ValueError`
instead of writing `"" + ".faiss"`.  With `p = "x"` — non-empty but with no
directory component — `os.path.dirname("x")` is `""` and
`os.makedirs('', exist_ok=True)` deterministically raises
`FileNotFoundError` before anything is written. -/
theorem c2_empty_path_counterexample :
    saveIndex vsWithIndex [] (some "") =
      .error (.valueError "No path specified for saving index") ∧
    osDirname "x" = "" ∧
    saveIndex vsWithIndex [] (some "x") =
      .error (.fileNotFoundError "No such file or directory: ''") ∧
    fsRead ([] : FileSystem) ("" ++ ".faiss") = none ∧
    fsRead ([] : FileSystem) ("x" ++ ".faiss") = none := by
  refine ⟨rfl, rfl, rfl, rfl, rfl⟩

/-- C2 (amended to non-empty paths with a directory component): for a store
with an index and a path `p` that is non-empty and has a non-empty
`os.path.dirname` (so `os.makedirs` does not raise), `save_index` writes
the FAISS index to `p + ".faiss"` and the metadata pickle (metadata list,
chunk texts, embedding dim, index type) to `p + ".metadata.pkl"`; a
subsequent `load_index p` on any store restores exactly the saved values;
and `load_index` raises `FileNotFoundError` whenever either file is
absent. -/
theorem c2_persistence_roundtrip (s : VectorStore) (fs : FileSystem) (p : String)
    (idx : FaissIndex) (hidx : s.index = some idx) (hp : p ≠ "")
    (hd : osDirname p ≠ "") :
    ∃ fs', saveIndex s fs (some p) = .ok fs' ∧
      fsRead fs' (p ++ ".faiss") = some (.faissFile idx) ∧
      fsRead fs' (p ++ ".metadata.pkl") =
        some (.pklFile s.metadata_store s.chunk_texts s.embedding_dim s.index_type) ∧
      (∀ t : VectorStore, loadIndex t fs' p = .ok { t with
        index := some idx
        metadata_store := s.metadata_store
        chunk_texts := s.chunk_texts
        embedding_dim := s.embedding_dim
        index_type := s.index_type }) ∧
      (∀ (t : VectorStore) (fs₀ : FileSystem),
        fsRead fs₀ (p ++ ".faiss") = none ∨ fsRead fs₀ (p ++ ".metadata.pkl") = none →
        loadIndex t fs₀ p =
          .error (.fileNotFoundError ("Index files not found at " ++ p))) := by
  have hne : p ++ ".metadata.pkl" ≠ p ++ ".faiss" := by
    intro h
    have := string_append_right_inj.mp h
    simp at this
  have hne' : (p ++ ".metadata.pkl" == p ++ ".faiss") = false := beq_eq_false_iff_ne.mpr hne
  refine ⟨fsWrite (fsWrite fs (p ++ ".faiss") (.faissFile idx)) (p ++ ".metadata.pkl")
    (.pklFile s.metadata_store s.chunk_texts s.embedding_dim s.index_type), ?_, ?_, ?_, ?_, ?_⟩
  · unfold saveIndex firstTruthyStr
    rw [hidx]
    simp [hp, hd]
  · simp [fsRead, fsWrite, List.find?, hne']
  · simp [fsRead, fsWrite, List.find?]
  · intro t
    have h1 : fsRead (fsWrite (fsWrite fs (p ++ ".faiss") (.faissFile idx))
        (p ++ ".metadata.pkl")
        (.pklFile s.metadata_store s.chunk_texts s.embedding_dim s.index_type))
        (p ++ ".faiss") = some (.faissFile idx) := by
      simp [fsRead, fsWrite, List.find?, hne']
    have h2 : fsRead (fsWrite (fsWrite fs (p ++ ".faiss") (.faissFile idx))
        (p ++ ".metadata.pkl")
        (.pklFile s.metadata_store s.chunk_texts s.embedding_dim s.index_type))
        (p ++ ".metadata.pkl") =
        some (.pklFile s.metadata_store s.chunk_texts s.embedding_dim s.index_type) := by
      simp [fsRead, fsWrite, List.find?]
    unfold loadIndex
    rw [h1, h2]
    rfl
  · intro t fs₀ h
    unfold loadIndex
    rcases h with h | h <;> rw [h] <;> simp

/-- Witness for C2 at a concrete store, path and empty filesystem. -/
theorem c2_persistence_roundtrip_witness :
    vsWithIndex.index = some ⟨2, "flat", true, none, [[1, 0]]⟩ ∧
    ("store/index" : String) ≠ "" ∧
    osDirname "store/index" ≠ "" ∧
    ∃ fs', saveIndex vsWithIndex [] (some "store/index") = .ok fs' ∧
      fsRead fs' ("store/index" ++ ".faiss") =
        some (.faissFile ⟨2, "flat", true, none, [[1, 0]]⟩) ∧
      fsRead fs' ("store/index" ++ ".metadata.pkl") =
        some (.pklFile vsWithIndex.metadata_store vsWithIndex.chunk_texts
          vsWithIndex.embedding_dim vsWithIndex.index_type) ∧
      (∀ t : VectorStore, loadIndex t fs' "store/index" = .ok { t with
        index := some ⟨2, "flat", true, none, [[1, 0]]⟩
        metadata_store := vsWithIndex.metadata_store
        chunk_texts := vsWithIndex.chunk_texts
        embedding_dim := vsWithIndex.embedding_dim
        index_type := vsWithIndex.index_type }) ∧
      (∀ (t : VectorStore) (fs₀ : FileSystem),
        fsRead fs₀ ("store/index" ++ ".faiss") = none ∨
          fsRead fs₀ ("store/index" ++ ".metadata.pkl") = none →
        loadIndex t fs₀ "store/index" =
          .error (.fileNotFoundError ("Index files not found at " ++ "store/index"))) :=
  ⟨rfl, by decide, by decide,
    c2_persistence_roundtrip vsWithIndex [] "store/index" ⟨2, "flat", true, none, [[1, 0]]⟩
      rfl (by decide) (by decide)⟩

/-! ## C3: `add_embeddings` -/

/-- Normalisation of the zero vector is the identity: its norm is `0`. -/
theorem pyNormalize_zero_vec (v : Vec) (hz : ∀ x ∈ v, x = (0 : ℝ)) :
    pyNormalize v = v := by
  have hn : pyNorm v = 0 := by
    unfold pyNorm
    have : (v.map fun x => x * x).sum = 0 := by
      apply List.sum_eq_zero
      intro y hy
      obtain ⟨x, hx, rfl⟩ := List.mem_map.mp hy
      rw [hz x hx]
      ring
    rw [this, Real.sqrt_zero]
  unfold pyNormalize
  rw [hn, if_neg (lt_irrefl 0)]

/-- Normalisation with a positive norm divides every component by it. -/
theorem pyNormalize_pos (v : Vec) (hv : 0 < pyNorm v) :
    pyNormalize v = v.map fun x => x / pyNorm v := by
  unfold pyNormalize
  rw [if_pos hv]

/-- C3: on a non-empty record list of a common dimension matching the (found
or lazily created) index, `add_embeddings` with `normalize=True` replaces
each vector of positive norm by the vector divided by its norm (zero vectors
are untouched), trains the index exactly when it is untrained, and appends
vectors, derived metadata records and texts (empty when the `text` key is
absent) after the existing entries in input order; the empty list leaves
the store unchanged. -/
theorem c3_add_embeddings (s : VectorStore) (embs : List EmbRecord) (d : Nat)
    (i0 : FaissIndex) (hne : embs ≠ [])
    (hd : ∀ e ∈ embs, e.embedding.length = d)
    (hi0 : getOrCreate s d = .ok i0) (hdim : i0.dim = d) :
    addEmbeddings s embs true = .ok { s with
      index := some { i0 with
        is_trained := true
        train_data := if i0.is_trained then i0.train_data
          else some (embs.map fun e => pyNormalize e.embedding)
        vectors := i0.vectors ++ embs.map fun e => pyNormalize e.embedding }
      metadata_store := s.metadata_store ++ embs.map fun e =>
        ChunkMeta.mk (e.chunk_id.getD "") (e.metadata.getD []) (e.start_index.getD 0)
          (e.end_index.getD 0)
      chunk_texts := s.chunk_texts ++ embs.map fun e => e.text.getD "" } ∧
    (∀ v : Vec, 0 < pyNorm v → pyNormalize v = v.map fun x => x / pyNorm v) ∧
    (∀ v : Vec, (∀ x ∈ v, x = (0 : ℝ)) → pyNormalize v = v) ∧
    addEmbeddings s [] true = .ok s := by
  refine ⟨?_, fun v hv => pyNormalize_pos v hv, fun v hz => pyNormalize_zero_vec v hz, rfl⟩
  match embs, hne with
  | e0 :: rest, _ =>
    have he0 : e0.embedding.length = d := hd e0 (List.mem_cons_self _ _)
    have hall : ((e0 :: rest).all fun e => e.embedding.length = e0.embedding.length) = true := by
      simp only [List.all_eq_true, decide_eq_true_eq]
      intro e he
      rw [hd e he, he0]
    have hrest : ∀ x ∈ rest, x.embedding.length = d :=
      fun x hx => hd x (List.mem_cons_of_mem _ hx)
    unfold addEmbeddings
    simp only [hall, he0, if_true, hi0, hdim, if_pos]
    cases htr : i0.is_trained <;>
      simp [htr, trainIndex, hdim, he0, hrest] <;>
      exact hrest

/-- Store with an empty trained flat index, used to witness C3. -/
def vsFlatEmpty : VectorStore :=
  ⟨none, some 2, "flat", some ⟨2, "flat", true, none, []⟩, [], []⟩

/-- Record list used to witness C3. -/
def embRecEx : List EmbRecord :=
  [⟨[1, 0], some "c0", some [("k", "v")], some 0, some 4, some "hello"⟩,
   ⟨[0, 0], none, none, none, none, none⟩]

/-- Witness for C3 at a concrete store and record list. -/
theorem c3_add_embeddings_witness :
    embRecEx ≠ [] ∧ (∀ e ∈ embRecEx, e.embedding.length = 2) ∧
    getOrCreate vsFlatEmpty 2 = .ok ⟨2, "flat", true, none, []⟩ ∧
    (⟨2, "flat", true, none, []⟩ : FaissIndex).dim = 2 ∧
    (addEmbeddings vsFlatEmpty embRecEx true = .ok { vsFlatEmpty with
      index := some { (⟨2, "flat", true, none, []⟩ : FaissIndex) with
        is_trained := true
        train_data := if (⟨2, "flat", true, none, []⟩ : FaissIndex).is_trained
          then (⟨2, "flat", true, none, []⟩ : FaissIndex).train_data
          else some (embRecEx.map fun e => pyNormalize e.embedding)
        vectors := (⟨2, "flat", true, none, []⟩ : FaissIndex).vectors ++
          embRecEx.map fun e => pyNormalize e.embedding }
      metadata_store := vsFlatEmpty.metadata_store ++ embRecEx.map fun e =>
        ChunkMeta.mk (e.chunk_id.getD "") (e.metadata.getD []) (e.start_index.getD 0)
          (e.end_index.getD 0)
      chunk_texts := vsFlatEmpty.chunk_texts ++ embRecEx.map fun e => e.text.getD "" } ∧
    (∀ v : Vec, 0 < pyNorm v → pyNormalize v = v.map fun x => x / pyNorm v) ∧
    (∀ v : Vec, (∀ x ∈ v, x = (0 : ℝ)) → pyNormalize v = v) ∧
    addEmbeddings vsFlatEmpty [] true = .ok vsFlatEmpty) := by
  have hd : ∀ e ∈ embRecEx, e.embedding.length = 2 := by
    intro e he
    simp only [embRecEx, List.mem_cons, List.not_mem_nil, or_false] at he
    rcases he with rfl | rfl <;> rfl
  exact ⟨by simp [embRecEx], hd, rfl, rfl,
    c3_add_embeddings vsFlatEmpty embRecEx 2 ⟨2, "flat", true, none, []⟩
      (by simp [embRecEx]) hd rfl rfl⟩

/-! ## C4: `search` on a populated store -/

/-- Normalisation preserves the vector length. -/
theorem pyNormalize_length (v : Vec) : (pyNormalize v).length = v.length := by
  unfold pyNormalize
  split <;> simp

/-- `selectBest` returns a remainder of the same length as its input. -/
theorem selectBest_length :
    ∀ (l : List (ℝ × Nat)) (b : ℝ × Nat), ((selectBest b l).2).length = l.length := by
  intro l
  induction l with
  | nil => intro b; rfl
  | cons c rest ih =>
    intro b
    unfold selectBest
    split <;> simp [ih]

/-- FAISS top-`k` selection returns `min k n` entries. -/
theorem faissTopK_length :
    ∀ (k : Nat) (l : List (ℝ × Nat)), (faissTopK k l).length = min k l.length := by
  intro k
  induction k with
  | zero => intro l; simp [faissTopK]
  | succ n ih =>
    intro l
    cases l with
    | nil => simp [faissTopK]
    | cons c rest =>
      unfold faissTopK
      simp only [List.length_cons, ih, selectBest_length]
      omega

/-- C4: on a store whose index holds at least one vector and a query of the
index dimension, `search` with `normalize=True` normalises the query (by
dividing by its norm whenever that is positive), asks the index for
`min k ntotal` neighbours, and pairs each hit whose position is below
`len(metadata_store)` with that metadata entry and text (empty text beyond
`len(chunk_texts)`); consequently at most `min k ntotal` results come
back. -/
theorem c4_search (s : VectorStore) (q : Vec) (k : Nat) (idx : FaissIndex)
    (hidx : s.index = some idx) (hne : idx.vectors ≠ [])
    (hdim : q.length = idx.dim) :
    ∃ res, searchStore s q k true = .ok res ∧
      res = (faissTopK (min k idx.vectors.length)
          (idx.vectors.enum.map fun iv => (ipR (pyNormalize q) iv.2, iv.1))).filterMap
        (fun si => if si.2 < s.metadata_store.length then
            some ⟨si.1, si.2, s.metadata_store.getD si.2 ⟨"", [], 0, 0⟩,
              if si.2 < s.chunk_texts.length then s.chunk_texts.getD si.2 "" else ""⟩
          else none) ∧
      res.length ≤ min k (ntotal s) ∧
      (0 < pyNorm q → pyNormalize q = q.map fun x => x / pyNorm q) := by
  have hlen : ¬ idx.vectors.length = 0 := by
    simpa [List.length_eq_zero] using hne
  have hq : (pyNormalize q).length = idx.dim := by
    rw [pyNormalize_length, hdim]
  refine ⟨_, ?_, rfl, ?_, fun h => pyNormalize_pos q h⟩
  · unfold searchStore
    rw [hidx]
    simp only [hlen, if_false, if_true, hq, if_pos]
  · have hn : ntotal s = idx.vectors.length := by
      unfold ntotal
      rw [hidx]
    rw [hn]
    refine le_trans (List.length_filterMap_le _ _) ?_
    rw [faissTopK_length]
    simp only [List.length_map, List.enum_length]
    omega

/-- Store with two unit vectors, used to witness C4. -/
def vsSearchEx : VectorStore :=
  ⟨none, some 2, "flat", some ⟨2, "flat", true, none, [[1, 0], [0, 1]]⟩,
    [⟨"c0", [], 0, 0⟩, ⟨"c1", [], 0, 0⟩], ["t0", "t1"]⟩

/-- Witness for C4 at a concrete populated store. -/
theorem c4_search_witness :
    vsSearchEx.index = some ⟨2, "flat", true, none, [[1, 0], [0, 1]]⟩ ∧
    ([[1, 0], [0, 1]] : List Vec) ≠ [] ∧
    ([1, 1] : Vec).length = (⟨2, "flat", true, none, [[1, 0], [0, 1]]⟩ : FaissIndex).dim ∧
    ∃ res, searchStore vsSearchEx [1, 1] 5 true = .ok res ∧
      res = (faissTopK (min 5 ([[1, 0], [0, 1]] : List Vec).length)
          (([[1, 0], [0, 1]] : List Vec).enum.map
            fun iv => (ipR (pyNormalize [1, 1]) iv.2, iv.1))).filterMap
        (fun si => if si.2 < vsSearchEx.metadata_store.length then
            some ⟨si.1, si.2, vsSearchEx.metadata_store.getD si.2 ⟨"", [], 0, 0⟩,
              if si.2 < vsSearchEx.chunk_texts.length then vsSearchEx.chunk_texts.getD si.2 ""
              else ""⟩
          else none) ∧
      res.length ≤ min 5 (ntotal vsSearchEx) ∧
      (0 < pyNorm [1, 1] → pyNormalize [1, 1] = ([1, 1] : Vec).map fun x => x / pyNorm [1, 1]) :=
  ⟨rfl, List.cons_ne_nil _ _, rfl,
    c4_search vsSearchEx [1, 1] 5 ⟨2, "flat", true, none, [[1, 0], [0, 1]]⟩ rfl
      (List.cons_ne_nil _ _) rfl⟩

/-! ## C1: positional alignment invariant -/

/-- The three parallel structures agree in length. -/
def Aligned (s : VectorStore) : Prop :=
  s.metadata_store.length = s.chunk_texts.length ∧ s.chunk_texts.length = ntotal s

/-- Auxiliary invariant carried through the induction: alignment plus the
fact that the concrete index kind always matches the `index_type`
attribute (true for every reachable store, and needed to rule out the
rebuild-then-add-to-untrained path of `remove_embeddings`). -/
def StoreInv (s : VectorStore) : Prop :=
  Aligned s ∧ ∀ idx, s.index = some idx → idx.kind = s.index_type

/-- Characterisation of a successful `_create_index`. -/
theorem createIndex_ok {t : String} {d : Nat} {i : FaissIndex}
    (h : createIndex t d = .ok i) :
    i.dim = d ∧ i.kind = t ∧ i.vectors = [] := by
  unfold createIndex at h
  split_ifs at h with h1 h2 h3
  · cases h
    simp [h1]
  · cases h
    simp [h2]
  · cases h
    simp [h3]

/-- A successful `getOrCreate` either returns the existing index or creates
one for an index-less store. -/
theorem getOrCreate_ok {s : VectorStore} {d : Nat} {i : FaissIndex}
    (h : getOrCreate s d = .ok i) :
    s.index = some i ∨ (s.index = none ∧ createIndex s.index_type d = .ok i) := by
  unfold getOrCreate at h
  cases hs : s.index with
  | some idx =>
    rw [hs] at h
    cases h
    exact .inl rfl
  | none =>
    rw [hs] at h
    exact .inr ⟨rfl, h⟩

/-- The length of `keepNotIn` depends only on the input length and the
removed index set. -/
theorem keepNotIn_length (l : List α) (idxs : List Nat) :
    (keepNotIn l idxs).length =
      ((List.range l.length).filter fun i => ¬ i ∈ idxs).length := by
  unfold keepNotIn
  rw [List.length_map, ← List.enum_map_fst l, List.filter_map, List.length_map]
  rfl

/-- `add_embeddings` preserves the store invariant (error paths leave the
store untouched). -/
theorem addEmbeddings_outState_inv (s : VectorStore) (embs : List EmbRecord)
    (nm : Bool) (h : StoreInv s) : StoreInv (outState (addEmbeddings s embs nm)) := by
  obtain ⟨⟨h1, h2⟩, hk⟩ := h
  cases embs with
  | nil => exact ⟨⟨h1, h2⟩, hk⟩
  | cons e0 rest =>
    simp only [addEmbeddings]
    split
    case isFalse => exact ⟨⟨h1, h2⟩, hk⟩
    case isTrue hall =>
      split
      case h_1 err heq => exact ⟨⟨h1, h2⟩, hk⟩
      case h_2 idx0 heq =>
        split
        case isFalse => exact ⟨⟨h1, h2⟩, hk⟩
        case isTrue hdim =>
          have hvec : idx0.vectors.length = ntotal s := by
            rcases getOrCreate_ok heq with hs | ⟨hs, hc⟩
            · unfold ntotal
              rw [hs]
            · rw [(createIndex_ok hc).2.2]
              unfold ntotal
              rw [hs]
              rfl
          have hkind : idx0.kind = s.index_type := by
            rcases getOrCreate_ok heq with hs | ⟨hs, hc⟩
            · exact hk idx0 hs
            · exact (createIndex_ok hc).2.1
          cases htr : idx0.is_trained with
          | true =>
            refine ⟨⟨?_, ?_⟩, ?_⟩
            · simp [outState, h1]
            · simp only [outState, htr, if_true, ntotal, List.length_append, List.length_map]
              omega
            · intro i hi
              simp only [outState, htr, if_true, Option.some.injEq] at hi
              rw [← hi]
              exact hkind
          | false =>
            refine ⟨⟨?_, ?_⟩, ?_⟩
            · simp [outState, h1]
            · simp only [outState, htr, Bool.false_eq_true, if_false, trainIndex, ntotal,
                List.length_append, List.length_map]
              omega
            · intro i hi
              simp only [outState, htr, Bool.false_eq_true, if_false, trainIndex,
                Option.some.injEq] at hi
              rw [← hi]
              exact hkind

/-- `remove_embeddings` preserves the store invariant. -/
theorem removeEmbeddings_outState_inv (s : VectorStore) (cids : List String)
    (h : StoreInv s) : StoreInv (outState (removeEmbeddings s cids)) := by
  obtain ⟨⟨h1, h2⟩, hk⟩ := h
  unfold removeEmbeddings
  split
  case isTrue => exact ⟨⟨h1, h2⟩, hk⟩
  case isFalse hc =>
    split
    case isTrue => exact ⟨⟨h1, h2⟩, hk⟩
    case isFalse hI =>
      split
      case h_2 heq => exact ⟨⟨h1, h2⟩, hk⟩
      case h_1 idx heq =>
        split
        case isFalse => exact ⟨⟨h1, h2⟩, hk⟩
        case isTrue hkind =>
          split
          case isFalse => exact ⟨⟨h1, h2⟩, hk⟩
          case isTrue hall =>
            have htype : s.index_type = "flat" := by
              rw [← hk idx heq, hkind]
            have htv : idx.vectors.length = s.chunk_texts.length := by
              unfold ntotal at h2
              rw [heq] at h2
              exact h2.symm
            have hci : createIndex "flat" idx.dim =
                .ok ⟨idx.dim, "flat", true, none, []⟩ := rfl
            rw [htype]
            split
            case h_1 e hce =>
              rw [hci] at hce
              exact Except.noConfusion hce
            case h_2 newIdx hce =>
              rw [hci] at hce
              cases hce
              split
              case isFalse hf => simp at hf
              case isTrue _ =>
                refine ⟨⟨?_, ?_⟩, ?_⟩
                · show (keepNotIn s.metadata_store _).length =
                    (keepNotIn s.chunk_texts _).length
                  rw [keepNotIn_length s.metadata_store, keepNotIn_length s.chunk_texts, h1]
                · show (keepNotIn s.chunk_texts _).length = _
                  simp only [outState, ntotal]
                  rw [keepNotIn_length s.chunk_texts, keepNotIn_length idx.vectors, htv]
                · intro i hi
                  simp only [outState, Option.some.injEq] at hi
                  rw [← hi]
                  rfl

/-- `clear` preserves the store invariant. -/
theorem clearStore_outState_inv (s : VectorStore) (h : StoreInv s) :
    StoreInv (outState (clearStore s)) := by
  obtain ⟨⟨h1, h2⟩, hk⟩ := h
  unfold clearStore
  split
  case h_1 heq =>
    refine ⟨⟨rfl, ?_⟩, ?_⟩
    · simp [outState, ntotal, heq]
    · intro i hi
      simp only [outState] at hi
      rw [heq] at hi
      cases hi
  case h_2 idx heq =>
    split
    case isTrue htr =>
      split
      case h_1 e hce => exact ⟨⟨h1, h2⟩, hk⟩
      case h_2 newIdx hce =>
        refine ⟨⟨rfl, ?_⟩, ?_⟩
        · simp [outState, ntotal, (createIndex_ok hce).2.2]
        · intro i hi
          simp only [outState, Option.some.injEq] at hi
          rw [← hi]
          exact (createIndex_ok hce).2.1
    case isFalse =>
      refine ⟨⟨rfl, rfl⟩, ?_⟩
      intro i hi
      simp only [outState] at hi
      cases hi

/-- A fresh store satisfies the invariant. -/
theorem mkVectorStore_inv {dim : Option Nat} {tpe : String} {s : VectorStore}
    (h : mkVectorStore dim tpe = .ok s) : StoreInv s := by
  unfold mkVectorStore at h
  split at h
  · cases hc : createIndex tpe (dim.getD 0) with
    | error e =>
      rw [hc] at h
      cases h
    | ok idx =>
      rw [hc] at h
      cases h
      refine ⟨⟨rfl, ?_⟩, ?_⟩
      · simp [ntotal, (createIndex_ok hc).2.2]
      · intro i hi
        simp only [Option.some.injEq] at hi
        subst hi
        exact (createIndex_ok hc).2.1
  · cases h
    exact ⟨⟨rfl, rfl⟩, by intro i hi; cases hi⟩

/-- Every operation preserves the invariant. -/
theorem applyOp_inv (s : VectorStore) (op : StoreOp) (h : StoreInv s) :
    StoreInv (applyOp s op) := by
  cases op with
  | add embs nm => exact addEmbeddings_outState_inv s embs nm h
  | remove cids => exact removeEmbeddings_outState_inv s cids h
  | clearAll => exact clearStore_outState_inv s h

/-- C1: every store reachable from a freshly created store by any sequence
of `add_embeddings`, `remove_embeddings` and `clear` calls keeps
`len(metadata_store) = len(chunk_texts) = index.ntotal` (with `ntotal`
read as `0` for an absent index), so position `i` of the index corresponds
to `metadata_store[i]` and `chunk_texts[i]`. -/
theorem c1_positional_alignment (s : VectorStore) (h : Reachable s) :
    s.metadata_store.length = s.chunk_texts.length ∧
    s.chunk_texts.length = ntotal s := by
  suffices hs : StoreInv s by exact hs.1
  induction h with
  | fresh dim tpe s h => exact mkVectorStore_inv h
  | step s op hr ih => exact applyOp_inv s op ih

/-- Freshly created flat store of dimension 2, used to witness C1. -/
def vsFreshEx : VectorStore :=
  ⟨none, some 2, "flat", some ⟨2, "flat", true, none, []⟩, [], []⟩

/-- Witness for C1: the fresh store is reachable and aligned. -/
theorem c1_positional_alignment_witness :
    mkVectorStore (some 2) "flat" = .ok vsFreshEx ∧
    (vsFreshEx.metadata_store.length = vsFreshEx.chunk_texts.length ∧
      vsFreshEx.chunk_texts.length = ntotal vsFreshEx) :=
  ⟨rfl, c1_positional_alignment vsFreshEx (Reachable.fresh (some 2) "flat" vsFreshEx rfl)⟩

/-! ## C7: paragraph-first splitting with sentence fallback -/

/-- `stripL` written with Mathlib's right-trim. -/
theorem stripL_eq_rdrop (l : List Char) :
    stripL l = List.rdropWhile isPySpace (l.dropWhile isPySpace) := rfl

/-- Stripping is idempotent. -/
theorem stripL_idem (l : List Char) : stripL (stripL l) = stripL l := by
  rw [stripL_eq_rdrop, stripL_eq_rdrop]
  have h1 : (List.rdropWhile isPySpace (l.dropWhile isPySpace)).dropWhile isPySpace =
      List.rdropWhile isPySpace (l.dropWhile isPySpace) := by
    rw [List.dropWhile_eq_self_iff]
    intro hl
    have hpre := List.rdropWhile_prefix isPySpace (l.dropWhile isPySpace)
    have h0 : 0 < (l.dropWhile isPySpace).length :=
      lt_of_lt_of_le hl hpre.length_le
    have hglue := hpre.getElem (n := 0) hl
    have hnot := List.dropWhile_get_zero_not (p := isPySpace) l h0
    simp only [List.get_eq_getElem] at hnot ⊢
    rw [← hglue] at hnot
    exact hnot
  rw [h1, List.rdropWhile_idempotent]

/-- The accumulation loop of `_split_by_paragraphs` expressed as a flat
map. -/
theorem foldl_sent_eq_flatMap (cs : Nat) :
    ∀ (l : List (List Char)) (acc : List (List Char)),
      l.foldl (fun acc p => if cs < p.length then acc ++ splitBySentences p else acc ++ [p])
        acc =
        acc ++ l.flatMap fun p => if cs < p.length then splitBySentences p else [p] := by
  intro l
  induction l with
  | nil =>
    intro acc
    simp
  | cons p rest ih =>
    intro acc
    simp only [List.foldl_cons, List.flatMap_cons]
    by_cases h : cs < p.length
    · rw [if_pos h, if_pos h, ih, List.append_assoc]
    · rw [if_neg h, if_neg h, ih, List.append_assoc]

/-- C7: `_split_by_paragraphs` first cuts the text at blank-line boundaries
(the `\n\s*\n` scan), divides every fragment longer than `chunk_size` at
sentence boundaries (whitespace after `.`, `!` or `?`), and drops
whitespace-only fragments, so every returned fragment is stripped and
non-empty. -/
theorem c7_paragraph_split (chunk_size : Nat) (text : List Char) :
    splitByParagraphs chunk_size text =
      ((pySplitBlank text).flatMap fun p =>
        if chunk_size < p.length then splitBySentences p else [p]).filterMap
        (fun p => if stripL p = [] then none else some (stripL p)) ∧
    ∀ p ∈ splitByParagraphs chunk_size text, stripL p = p ∧ p ≠ [] := by
  constructor
  · simp only [splitByParagraphs]
    rw [foldl_sent_eq_flatMap]
    rfl
  · intro p hp
    unfold splitByParagraphs at hp
    obtain ⟨a, ha, hfa⟩ := List.mem_filterMap.mp hp
    by_cases hs : stripL a = []
    · rw [if_pos hs] at hfa
      cases hfa
    · rw [if_neg hs] at hfa
      cases hfa
      exact ⟨stripL_idem a, hs⟩

/-- Witness for C7 on a small text with a blank-line separator and
whitespace padding. -/
theorem c7_paragraph_split_witness :
    "hi".data ∈ splitByParagraphs 100 " hi \n\n\n x.".data ∧
    (stripL "hi".data = "hi".data ∧ "hi".data ≠ []) := by
  have hm : "hi".data ∈ splitByParagraphs 100 " hi \n\n\n x.".data := by decide
  exact ⟨hm, (c7_paragraph_split 100 " hi \n\n\n x.".data).2 "hi".data hm⟩

/-! ## C6: overlap by trailing slice -/

/-- A Boolean-level check that one list starts another bounds its length. -/
theorem isPrefixOf_length_le :
    ∀ {l₁ l₂ : List Char}, l₁.isPrefixOf l₂ → l₁.length ≤ l₂.length := by
  intro l₁
  induction l₁ with
  | nil =>
    intro l₂ h
    simp
  | cons a t ih =>
    intro l₂ h
    cases l₂ with
    | nil => simp [List.isPrefixOf] at h
    | cons b t2 =>
      simp only [List.isPrefixOf, Bool.and_eq_true] at h
      simpa using ih h.2

/-- A successful `rfind` leaves room for the needle inside the text. -/
theorem rfindL_le {text sub : List Char} {i : Nat} (h : rfindL text sub = some i) :
    i + sub.length ≤ text.length := by
  unfold rfindL at h
  have hmem := List.mem_of_getLast?_eq_some h
  obtain ⟨hrange, hpred⟩ := List.mem_filter.mp hmem
  have hi : i < text.length + 1 := List.mem_range.mp hrange
  have hpre : sub.isPrefixOf (text.drop i) := by simpa using hpred
  have := isPrefixOf_length_le hpre
  rw [List.length_drop] at this
  omega

/-- The sentence-ending phase returns a position inside the text. -/
theorem endingSplitGo_le {cs : Nat} {text : List Char} {r : Nat} :
    ∀ {es : List (List Char)}, endingSplitGo cs text es = some r → r ≤ text.length := by
  intro es
  induction es with
  | nil =>
    intro h
    cases h
  | cons ending rest ih =>
    intro h
    unfold endingSplitGo at h
    cases hr : rfindL text ending with
    | none =>
      simp only [hr] at h
      exact ih h
    | some last =>
      simp only [hr] at h
      by_cases hc : 0 < last ∧ last < cs
      · rw [if_pos hc] at h
        cases h
        have := rfindL_le hr
        omega
      · rw [if_neg hc] at h
        exact ih h

/-- The paragraph-break phase returns a position inside the text. -/
theorem parSplit_le {cs : Nat} {text : List Char} {r : Nat}
    (h : parSplit cs text = some r) : r ≤ text.length := by
  unfold parSplit at h
  cases hr : rfindL text ['\n', '\n'] with
  | none =>
    simp only [hr] at h
    cases h
  | some pb =>
    simp only [hr] at h
    by_cases hc : 0 < pb ∧ pb < cs
    · rw [if_pos hc] at h
      cases h
      have := rfindL_le hr
      simp at this
      omega
    · rw [if_neg hc] at h
      cases h

/-- The word-boundary phase returns a position inside the text. -/
theorem spaceSplit_le {cs : Nat} {text : List Char} {r : Nat}
    (h : spaceSplit cs text = some r) : r ≤ text.length := by
  unfold spaceSplit at h
  cases hr : rfindL text [' '] with
  | none =>
    simp only [hr] at h
    cases h
  | some ls =>
    simp only [hr] at h
    by_cases hc : 0 < ls ∧ ls < cs
    · rw [if_pos hc] at h
      cases h
      have := rfindL_le hr
      simp at this
      omega
    · rw [if_neg hc] at h
      cases h

/-- `_find_best_split_point` never points past the end of the text. -/
theorem findBestSplitPoint_le (cs : Nat) (text : List Char) :
    findBestSplitPoint cs text ≤ text.length := by
  unfold findBestSplitPoint
  cases he : endingSplit cs text with
  | some r =>
    simp only [Option.orElse, Option.getD]
    exact endingSplitGo_le he
  | none =>
    simp only [Option.orElse, Option.getD]
    cases hp : parSplit cs text with
    | some r =>
      simp only [Option.orElse, Option.getD]
      exact parSplit_le hp
    | none =>
      cases hs : spaceSplit cs text with
      | some r =>
        simp only [Option.orElse, Option.getD]
        exact spaceSplit_le hs
      | none => simp

/-- The Python slice `l[sp-ov : sp]` is exactly the `ov` characters before
position `sp` when `ov ≤ sp ≤ len(l)`. -/
theorem pySlice_take_drop {l : List Char} {sp ov : Nat} (hov : ov ≤ sp)
    (hsp : sp ≤ l.length) :
    pySlice l ((sp : Int) - ov) sp = (l.take sp).drop (sp - ov) ∧
    ((l.take sp).drop (sp - ov)).length = ov := by
  constructor
  · unfold pySlice pyIdx
    have h1 : ¬ ((sp : Int) - ov < 0) := by omega
    have h2 : ¬ ((sp : Int) < 0) := by omega
    rw [if_neg h1, if_neg h2]
    have h3 : ((sp : Int) - ov).toNat = sp - ov := by omega
    have h4 : (sp : Int).toNat = sp := by omega
    rw [h3, h4, min_eq_left hsp, min_eq_left (le_trans (Nat.sub_le sp ov) hsp)]
  · rw [List.length_drop, List.length_take]
    omega

/-- C6 (amended): whenever the loop body emits a chunk at a found split
point `sp` with `chunk_overlap ≤ sp`, the text accumulated for the next
chunk begins with exactly the `chunk_overlap` characters that immediately
precede the split point.  (When `sp < chunk_overlap` the Python slice
`current_chunk[sp - chunk_overlap : sp]` wraps around instead and can even
be empty, so the claim's unrestricted form fails.) -/
theorem c6_overlap_amended (cs ov : Nat) (doc : String) (st : SPState) (i : Nat)
    (p : List Char)
    (hbig : cs < st.current.length + p.length) (hcur : st.current ≠ [])
    (hsp : 0 < findBestSplitPoint cs st.current)
    (hemit : stripL (st.current.take (findBestSplitPoint cs st.current)) ≠ [])
    (hov : ov ≤ findBestSplitPoint cs st.current) :
    (splitStep cs ov doc st (i, p)).current =
      ((st.current.take (findBestSplitPoint cs st.current)).drop
        (findBestSplitPoint cs st.current - ov)) ++ p ∧
    ((st.current.take (findBestSplitPoint cs st.current)).drop
      (findBestSplitPoint cs st.current - ov)).length = ov := by
  have hsple := findBestSplitPoint_le cs st.current
  obtain ⟨hslice, hlen⟩ := pySlice_take_drop hov hsple
  refine ⟨?_, hlen⟩
  unfold splitStep
  rw [if_pos ⟨hbig, hcur⟩, if_pos hsp]
  show pySlice st.current _ _ ++ p = _
  rw [hslice]

/-- State reached by `split_text` on `"ab. cdefgh\n\nxyzzy"` with
`chunk_size = 10`, `chunk_overlap = 8` after the first paragraph. -/
def c6St : SPState := ⟨[], "ab. cdefgh".data, 0⟩

/-- C6 counterexample: with `chunk_size = 10` and `chunk_overlap = 8`, on
the second paragraph of `"ab. cdefgh\n\nxyzzy"` the loop emits the chunk
`"ab."` at split point `3 < 8 = chunk_overlap`, yet the next accumulated
text is exactly the new paragraph: the Python slice
`current_chunk[3-8:3] = current_chunk[-5:3]` is empty, so no
`chunk_overlap`-character trailing slice of the prior text prefixes it. -/
theorem c6_overlap_counterexample :
    splitByParagraphs 10 "ab. cdefgh\n\nxyzzy".data =
      ["ab. cdefgh".data, "xyzzy".data] ∧
    splitStep 10 8 "doc" ⟨[], [], 0⟩ (0, "ab. cdefgh".data) = c6St ∧
    (10 < c6St.current.length + ("xyzzy".data).length ∧ c6St.current ≠ []) ∧
    findBestSplitPoint 10 c6St.current = 3 ∧
    stripL (c6St.current.take 3) = "ab.".data ∧
    (splitStep 10 8 "doc" c6St (1, "xyzzy".data)).chunks =
      [⟨"ab.".data, 0, 3, "doc_chunk_0", 1⟩] ∧
    (splitStep 10 8 "doc" c6St (1, "xyzzy".data)).current = "xyzzy".data ∧
    ¬ ∃ pre : List Char,
      (splitStep 10 8 "doc" c6St (1, "xyzzy".data)).current = pre ++ "xyzzy".data ∧
      pre.length = 8 := by
  refine ⟨by decide, by decide, by decide, by decide, by decide, by decide, by decide, ?_⟩
  rintro ⟨pre, h1, h2⟩
  have hc : (splitStep 10 8 "doc" c6St (1, "xyzzy".data)).current = "xyzzy".data := by
    decide
  rw [hc] at h1
  have hl := congrArg List.length h1
  rw [List.length_append] at hl
  omega

/-- Witness for the amended C6 at `chunk_overlap = 2 ≤ 3 = split point`. -/
theorem c6_overlap_amended_witness :
    (10 < c6St.current.length + ("xyzzy".data).length ∧ c6St.current ≠ [] ∧
      0 < findBestSplitPoint 10 c6St.current ∧
      stripL (c6St.current.take (findBestSplitPoint 10 c6St.current)) ≠ [] ∧
      2 ≤ findBestSplitPoint 10 c6St.current) ∧
    (splitStep 10 2 "doc" c6St (1, "xyzzy".data)).current =
      ((c6St.current.take (findBestSplitPoint 10 c6St.current)).drop
        (findBestSplitPoint 10 c6St.current - 2)) ++ "xyzzy".data ∧
    ((c6St.current.take (findBestSplitPoint 10 c6St.current)).drop
      (findBestSplitPoint 10 c6St.current - 2)).length = 2 :=
  ⟨⟨by decide, by decide, by decide, by decide, by decide⟩,
    (c6_overlap_amended 10 2 "doc" c6St 1 "xyzzy".data (by decide) (by decide)
      (by decide) (by decide) (by decide)).1,
    (c6_overlap_amended 10 2 "doc" c6St 1 "xyzzy".data (by decide) (by decide)
      (by decide) (by decide) (by decide)).2⟩

/-! ## C10: chunk id uniqueness -/

/-- Decimal valuation of a digit string. -/
def digitsVal (l : List Char) : Nat :=
  l.foldl (fun a c => 10 * a + (c.toNat - 48)) 0

/-- The ten decimal digit characters decode back to their values. -/
theorem digitChar_toNat_sub (d : Nat) (h : d < 10) : (Nat.digitChar d).toNat - 48 = d := by
  interval_cases d <;> decide

/-- `Nat.toDigitsCore` prepends a digit string of the right value. -/
theorem toDigitsCore_val :
    ∀ (fuel n : Nat) (ds : List Char), n < fuel →
      ∃ dsn, Nat.toDigitsCore 10 fuel n ds = dsn ++ ds ∧ digitsVal dsn = n := by
  intro fuel
  induction fuel with
  | zero =>
    intro n ds h
    omega
  | succ f ih =>
    intro n ds h
    simp only [Nat.toDigitsCore]
    by_cases h0 : n / 10 = 0
    · rw [if_pos h0]
      refine ⟨[Nat.digitChar (n % 10)], rfl, ?_⟩
      have hlt : n % 10 < 10 := Nat.mod_lt _ (by omega)
      simp only [digitsVal, List.foldl_cons, List.foldl_nil, Nat.mul_zero, Nat.zero_add]
      rw [digitChar_toNat_sub (n % 10) hlt]
      omega
    · rw [if_neg h0]
      have hlt : n / 10 < f := by omega
      obtain ⟨dsn, heq, hval⟩ := ih (n / 10) (Nat.digitChar (n % 10) :: ds) hlt
      refine ⟨dsn ++ [Nat.digitChar (n % 10)], ?_, ?_⟩
      · rw [heq, List.append_assoc]
        rfl
      · have hlt10 : n % 10 < 10 := Nat.mod_lt _ (by omega)
        unfold digitsVal at hval ⊢
        rw [List.foldl_append, hval]
        simp only [List.foldl_cons, List.foldl_nil]
        rw [digitChar_toNat_sub (n % 10) hlt10]
        omega

/-- The decimal rendering used by `str(i)` is injective. -/
theorem natRepr_inj {m n : Nat} (h : Nat.repr m = Nat.repr n) : m = n := by
  unfold Nat.repr Nat.toDigits at h
  obtain ⟨dm, hm, hvm⟩ := toDigitsCore_val (m + 1) m [] (by omega)
  obtain ⟨dn, hn, hvn⟩ := toDigitsCore_val (n + 1) n [] (by omega)
  rw [hm, hn] at h
  have hl := List.asString_inj.mp h
  simp only [List.append_nil] at hl
  rw [← hvm, ← hvn, hl]

/-- The chunk id `f"{doc}_chunk_{k}"` determines the position `k`. -/
theorem chunkId_inj {doc : String} {i j : Nat}
    (h : doc ++ "_chunk_" ++ Nat.repr i = doc ++ "_chunk_" ++ Nat.repr j) : i = j :=
  natRepr_inj (string_append_right_inj.mp h)

/-- Every chunk of a list carries the id of its own position. -/
def ChunksIdOK (doc : String) (cl : List TextChunk) : Prop :=
  ∀ k (hk : k < cl.length),
    (cl.get ⟨k, hk⟩).chunk_id = doc ++ "_chunk_" ++ Nat.repr k

/-- Appending a chunk whose id names the current length keeps the ids
positional. -/
theorem chunksIdOK_append {doc : String} {cl : List TextChunk} {c : TextChunk}
    (h : ChunksIdOK doc cl)
    (hc : c.chunk_id = doc ++ "_chunk_" ++ Nat.repr cl.length) :
    ChunksIdOK doc (cl ++ [c]) := by
  intro k hk
  simp only [List.get_eq_getElem]
  rw [List.length_append, List.length_singleton] at hk
  by_cases hlt : k < cl.length
  · rw [List.getElem_append_left hlt]
    have := h k hlt
    simpa using this
  · have hke : k = cl.length := by omega
    subst hke
    rw [List.getElem_concat_length _ _ _ rfl]
    exact hc

/-- The loop body of `split_text` keeps the ids positional. -/
theorem splitStep_chunks_ok (cs ov : Nat) (doc : String) (st : SPState)
    (ip : Nat × List Char) (h : ChunksIdOK doc st.chunks) :
    ChunksIdOK doc (splitStep cs ov doc st ip).chunks := by
  simp only [splitStep]
  split
  case isFalse => exact h
  case isTrue =>
    split
    case isTrue =>
      split
      case isTrue => exact chunksIdOK_append h rfl
      case isFalse => exact h
    case isFalse => exact chunksIdOK_append h rfl

/-- Folding the loop over the paragraphs keeps the ids positional. -/
theorem foldl_chunks_ok (cs ov : Nat) (doc : String) :
    ∀ (l : List (Nat × List Char)) (st : SPState), ChunksIdOK doc st.chunks →
      ChunksIdOK doc ((l.foldl (splitStep cs ov doc) st).chunks) := by
  intro l
  induction l with
  | nil => intro st h; exact h
  | cons x rest ih =>
    intro st h
    exact ih _ (splitStep_chunks_ok cs ov doc st x h)

/-- C10: the chunk at position `i` of `split_text(text, document_id)` has
`chunk_id = document_id + "_chunk_" + str(i)`, and consequently the chunk
ids of one call are pairwise distinct. -/
theorem c10_chunk_ids (cs ov : Nat) (text : List Char) (doc : String) :
    (∀ k (hk : k < (splitText cs ov text doc).length),
      ((splitText cs ov text doc).get ⟨k, hk⟩).chunk_id =
        doc ++ "_chunk_" ++ Nat.repr k) ∧
    ((splitText cs ov text doc).map fun c => c.chunk_id).Nodup := by
  have hok : ChunksIdOK doc (splitText cs ov text doc) := by
    simp only [splitText]
    split
    · intro k hk
      cases hk
    · split
      case isTrue =>
        exact chunksIdOK_append (foldl_chunks_ok cs ov doc _ _ (by intro k hk; cases hk)) rfl
      case isFalse =>
        exact foldl_chunks_ok cs ov doc _ _ (by intro k hk; cases hk)
  refine ⟨hok, ?_⟩
  rw [List.nodup_iff_injective_get]
  intro a b hab
  have hal : a.val < (splitText cs ov text doc).length := by
    have := a.isLt
    simpa using this
  have hbl : b.val < (splitText cs ov text doc).length := by
    have := b.isLt
    simpa using this
  have ha := hok a.val hal
  have hb := hok b.val hbl
  simp only [List.get_eq_getElem, List.getElem_map] at hab
  simp only [List.get_eq_getElem] at ha hb
  apply Fin.ext
  have hid : doc ++ "_chunk_" ++ Nat.repr a.val = doc ++ "_chunk_" ++ Nat.repr b.val := by
    rw [← ha, ← hb]
    exact hab
  exact chunkId_inj hid

/-- Witness for C10 on a two-chunk run. -/
theorem c10_chunk_ids_witness :
    ∃ h : 1 < (splitText 10 2 "ab. cdefgh\n\nxyzzy".data "doc").length,
      ((splitText 10 2 "ab. cdefgh\n\nxyzzy".data "doc").get ⟨1, h⟩).chunk_id =
        "doc" ++ "_chunk_" ++ Nat.repr 1 ∧
      ((splitText 10 2 "ab. cdefgh\n\nxyzzy".data "doc").map fun c => c.chunk_id).Nodup := by
  have hlen : 1 < (splitText 10 2 "ab. cdefgh\n\nxyzzy".data "doc").length := by decide
  exact ⟨hlen, (c10_chunk_ids 10 2 "ab. cdefgh\n\nxyzzy".data "doc").1 1 hlen,
    (c10_chunk_ids 10 2 "ab. cdefgh\n\nxyzzy".data "doc").2⟩

end RAG
